import Mathlib

/-
Verification of the receipt-analyzer core (src/src/main.rs) against its
natural-language specification.

Modelling conventions:
- Rust strings are modelled as `List Char`; `str::len` (a byte count) is
  modelled by `utf8Len`, which sums the UTF-8 sizes of the characters.
- Rust `f64` prices are modelled as exact rationals (`Rat`); the special
  values infinity and NaN that `f64::from_str` can produce are modelled by
  the dedicated type `RustFloatVal`.
- `char::to_lowercase` is modelled pointwise by `lowerChar`, a finite
  table covering ASCII and the Latin-1 letters (the locale of the program);
  all other characters are left unchanged.
- `char::is_whitespace` is modelled by `isWsChar`, the full Unicode
  White_Space list, and `char::is_alphanumeric` / `char::is_numeric` by
  `isAlnumChar` / `isNumericChar`, restricted to ASCII and Latin-1.
- The regex patterns of `parse_receipt_text` are modelled by a small
  backtracking engine (`mtch`) with the leftmost-first, greedy-preference
  capture semantics of the Rust `regex` crate, and each of the five
  patterns is transcribed as an `RE` term (`patQtyTotal`, `patEuro`,
  `patEuroSimple`, `patDeSimple`, `patFallback`).
- The external fuzzy scorer (`SkimMatcherV2.fuzzy_match`, a third-party
  crate whose source is not part of this repository) is an abstract
  parameter `score : List Char → List Char → Option Int`; the `HashMap`
  iteration/insertion order, which in Rust depends on a per-process random
  seed, is an abstract slot-choice parameter `pos`.
-/

namespace RcptA

/-- Unicode White_Space code points; models Rust `char::is_whitespace`. -/
def isWsChar (c : Char) : Bool :=
  decide (c.toNat = 9 ∨ c.toNat = 10 ∨ c.toNat = 11 ∨ c.toNat = 12 ∨
    c.toNat = 13 ∨ c.toNat = 32 ∨ c.toNat = 0x85 ∨ c.toNat = 0xA0 ∨
    c.toNat = 0x1680 ∨ (0x2000 ≤ c.toNat ∧ c.toNat ≤ 0x200A) ∨
    c.toNat = 0x2028 ∨ c.toNat = 0x2029 ∨ c.toNat = 0x202F ∨
    c.toNat = 0x205F ∨ c.toNat = 0x3000)

/-- ASCII decimal digit; models the regex class `\d` and Rust
`char::is_numeric` restricted to ASCII (the only digits in scope). -/
def isDigitChar (c : Char) : Bool :=
  decide ((48 : Nat) ≤ c.toNat ∧ c.toNat ≤ 57)

/-- Models Rust `char::is_alphanumeric` restricted to ASCII and Latin-1:
ASCII letters and digits plus the Latin-1 letters (0xC0-0xFF without the
multiplication and division signs 0xD7, 0xF7). -/
def isAlnumChar (c : Char) : Bool :=
  isDigitChar c ||
  decide ((65 ≤ c.toNat ∧ c.toNat ≤ 90) ∨ (97 ≤ c.toNat ∧ c.toNat ≤ 122) ∨
    (0xC0 ≤ c.toNat ∧ c.toNat ≤ 0xFF ∧ c.toNat ≠ 0xD7 ∧ c.toNat ≠ 0xF7))

/-- The uppercase-to-lowercase table: ASCII A-Z and the Latin-1 capital
letters. Models Rust `to_lowercase` pointwise on the locale in scope;
characters outside the table are unchanged. -/
def lowerPairs : List (Char × Char) :=
  [('A', 'a'), ('B', 'b'), ('C', 'c'), ('D', 'd'), ('E', 'e'), ('F', 'f'),
   ('G', 'g'), ('H', 'h'), ('I', 'i'), ('J', 'j'), ('K', 'k'), ('L', 'l'),
   ('M', 'm'), ('N', 'n'), ('O', 'o'), ('P', 'p'), ('Q', 'q'), ('R', 'r'),
   ('S', 's'), ('T', 't'), ('U', 'u'), ('V', 'v'), ('W', 'w'), ('X', 'x'),
   ('Y', 'y'), ('Z', 'z'),
   ('À', 'à'), ('Á', 'á'), ('Â', 'â'), ('Ã', 'ã'), ('Ä', 'ä'), ('Å', 'å'),
   ('Æ', 'æ'), ('Ç', 'ç'), ('È', 'è'), ('É', 'é'), ('Ê', 'ê'), ('Ë', 'ë'),
   ('Ì', 'ì'), ('Í', 'í'), ('Î', 'î'), ('Ï', 'ï'), ('Ð', 'ð'), ('Ñ', 'ñ'),
   ('Ò', 'ò'), ('Ó', 'ó'), ('Ô', 'ô'), ('Õ', 'õ'), ('Ö', 'ö'), ('Ø', 'ø'),
   ('Ù', 'ù'), ('Ú', 'ú'), ('Û', 'û'), ('Ü', 'ü'), ('Ý', 'ý'), ('Þ', 'þ')]

/-- Pointwise model of Rust lowercasing (see `lowerPairs`). -/
def lowerChar (c : Char) : Char :=
  match lowerPairs.find? (fun p => p.1 == c) with
  | some p => p.2
  | none => c

/-- Model of `str::to_lowercase` on a character list. -/
def lowerList (l : List Char) : List Char := l.map lowerChar

/-- Model of `str::trim`: drop Unicode whitespace from both ends. -/
def trimList (l : List Char) : List Char :=
  ((l.dropWhile isWsChar).reverse.dropWhile isWsChar).reverse

/-- Auxiliary state machine for `splitWs`; `acc` is the current word,
reversed. -/
def splitWsAux : List Char → List Char → List (List Char)
  | [], acc => if acc.isEmpty then [] else [acc.reverse]
  | c :: r, acc =>
    if isWsChar c then
      if acc.isEmpty then splitWsAux r [] else acc.reverse :: splitWsAux r []
    else splitWsAux r (c :: acc)

/-- Model of `str::split_whitespace`: maximal whitespace-free nonempty
chunks. -/
def splitWs (l : List Char) : List (List Char) := splitWsAux l []

/-- Model of `Vec::join(" ")` on character lists. -/
def joinSpace (ws : List (List Char)) : List Char :=
  match ws with
  | [] => []
  | w :: rest => w ++ (rest.foldr (fun x acc => (' ' :: x) ++ acc) [])

/-- Does `t` occur as a contiguous sub-list of `l`? Models `str::contains`
with a literal pattern. -/
def containsSub (t l : List Char) : Bool :=
  match l with
  | [] => t.isEmpty
  | _ :: r => t.isPrefixOf l || containsSub t r

/-- Does `l` start with `t`? Models `str::starts_with`. -/
def leadsWith (t l : List Char) : Bool := t.isPrefixOf l

/-- Model of `str::len`: the UTF-8 byte length. -/
def utf8Len (l : List Char) : Nat := (l.map Char.utf8Size).sum

/-! ## The price normalizer: `parse_european_price`

Rust `f64::from_str` accepts an optional sign, then either one of the
case-insensitive keywords `inf` / `infinity` / `nan`, or a decimal number
`Digits . Digits? | Digits | . Digits` with an optional exponent
`(e|E) Sign? Digits`. It returns `Ok` even for non-finite results:
overflowing decimals round to infinity. The value of a finite result is
modelled exactly as a rational.
-/

/-- The result of a successful Rust `f64` parse. -/
inductive RustFloatVal where
  | fin (q : Rat)
  | pinf
  | ninf
  | nan
  deriving DecidableEq, Repr

/-- Numeric value of a digit list (most significant first). -/
def digitsToNat (l : List Char) : Nat :=
  l.foldl (fun acc c => 10 * acc + (c.toNat - 48)) 0

/-- The exponent suffix `Sign? Digits` of a float literal. -/
def parseExpSuffix (s : List Char) : Option Int :=
  match s with
  | '+' :: r => if r ≠ [] ∧ r.all isDigitChar then some (digitsToNat r) else none
  | '-' :: r => if r ≠ [] ∧ r.all isDigitChar then some (-(digitsToNat r : Int)) else none
  | r => if r ≠ [] ∧ r.all isDigitChar then some (digitsToNat r) else none

/-- Scale a rational by a power of ten. -/
def scalePow10 (q : Rat) (e : Int) : Rat :=
  match e with
  | .ofNat n => q * (10 : Rat) ^ n
  | .negSucc n => q / (10 : Rat) ^ (n + 1)

/-- The unsigned decimal-number grammar of Rust `f64::from_str`
(`Digits ( . Digits? )? Exp?` or `. Digits Exp?`), valued exactly. -/
def parseNumber (s : List Char) : Option Rat :=
  let intDs := s.takeWhile isDigitChar
  let rest := s.dropWhile isDigitChar
  match rest with
  | [] => if intDs.isEmpty then none else some (digitsToNat intDs)
  | '.' :: r2 =>
    let fracDs := r2.takeWhile isDigitChar
    let r3 := r2.dropWhile isDigitChar
    if intDs.isEmpty ∧ fracDs.isEmpty then none
    else
      let m : Rat := (digitsToNat intDs : Rat) +
        (digitsToNat fracDs : Rat) / (10 : Rat) ^ fracDs.length
      match r3 with
      | [] => some m
      | e :: r4 =>
        if e = 'e' ∨ e = 'E' then (parseExpSuffix r4).map (scalePow10 m)
        else none
  | e :: r4 =>
    if (e = 'e' ∨ e = 'E') ∧ ¬ intDs.isEmpty then
      (parseExpSuffix r4).map (scalePow10 (digitsToNat intDs))
    else none

/-- Smallest magnitude that rounds to infinity in `f64` arithmetic
(round to nearest even): 2^1024 - 2^970. -/
def f64InfBound : Rat := ((2 ^ 1024 - 2 ^ 970 : Nat) : Rat)

/-- Map an exact decimal value to its `f64` classification: values at or
beyond the rounding bound become infinities, everything else stays finite
(represented exactly). -/
def clampF64 (q : Rat) : RustFloatVal :=
  if f64InfBound ≤ q then .pinf
  else if q ≤ -f64InfBound then .ninf
  else .fin q

/-- Model of Rust `str::parse::<f64>()`. -/
def rustParseF64 (s : List Char) : Option RustFloatVal :=
  let (neg, body) :=
    match s with
    | '+' :: r => (false, r)
    | '-' :: r => (true, r)
    | r => (false, r)
  let low := lowerList body
  if low = ('i' :: 'n' :: 'f' :: []) ∨
     low = ('i' :: 'n' :: 'f' :: 'i' :: 'n' :: 'i' :: 't' :: 'y' :: []) then
    some (if neg then .ninf else .pinf)
  else if low = ('n' :: 'a' :: 'n' :: []) then some .nan
  else (parseNumber body).map (fun q => clampF64 (if neg then -q else q))

/-- Model of `parse_european_price` (src/src/main.rs lines 279-288):
if the text contains a comma, every comma is replaced by a dot, then the
text is parsed as an `f64`. -/
def parse_european_price (s : List Char) : Option RustFloatVal :=
  if s.contains ',' then
    rustParseF64 (s.map (fun c => if c = ',' then '.' else c))
  else rustParseF64 s

/-! ## A small regex engine

The five patterns of `parse_receipt_text` use only character classes,
concatenation, alternation, greedy option, and greedy bounded repetition
of a class. `mtch` is a continuation-passing backtracking matcher with the
leftmost-first (Perl-like) preference order that the Rust `regex` crate
documents: alternatives left to right, repetitions longest first.
-/

/-- Capture list: group index paired with the captured characters. -/
def Caps : Type := List (Nat × List Char)

instance : DecidableEq Caps := by
  unfold Caps
  infer_instance

/-- Regex abstract syntax: epsilon, one-character class, concatenation,
alternation (left preferred), greedy option, greedy `{lo,hi}` repetition
of a class (`hi = none` is unbounded), and a numbered capture group. -/
inductive RE where
  | eps
  | cls (p : Char → Bool)
  | seq (a b : RE)
  | alt (a b : RE)
  | opt (a : RE)
  | rep (p : Char → Bool) (lo : Nat) (hi : Option Nat)
  | grp (i : Nat) (a : RE)

/-- Length of the longest run of characters satisfying `p` at the head. -/
def npfx (p : Char → Bool) : List Char → Nat
  | [] => 0
  | c :: r => if p c then npfx p r + 1 else 0

/-- The list `[hi, hi - 1, ..., lo]` (empty when `hi < lo`): the greedy
preference order of repetition counts. -/
def downFrom (hi lo : Nat) : List Nat :=
  (List.range' lo (hi + 1 - lo)).reverse

/-- Try the continuation after dropping each length in turn. -/
def tryLens (k : List Char → Caps → Option Caps) (s : List Char)
    (cp : Caps) : List Nat → Option Caps
  | [] => none
  | n :: rest =>
    match k (s.drop n) cp with
    | some r => some r
    | none => tryLens k s cp rest

/-- The backtracking matcher. `k` receives the remaining input and the
captures accumulated so far; the first success in preference order wins,
exactly like the leftmost-first capture semantics of the `regex` crate. -/
def mtch : RE → List Char → Caps → (List Char → Caps → Option Caps) →
    Option Caps
  | .eps, s, cp, k => k s cp
  | .cls p, s, cp, k =>
    match s with
    | [] => none
    | c :: r => if p c then k r cp else none
  | .seq a b, s, cp, k => mtch a s cp (fun s2 cp2 => mtch b s2 cp2 k)
  | .alt a b, s, cp, k =>
    match mtch a s cp k with
    | some r => some r
    | none => mtch b s cp k
  | .opt a, s, cp, k =>
    match mtch a s cp k with
    | some r => some r
    | none => k s cp
  | .rep p lo hi, s, cp, k =>
    let m := npfx p s
    let m2 := match hi with | some h => min m h | none => m
    if m2 < lo then none else tryLens k s cp (downFrom m2 lo)
  | .grp i a, s, cp, k =>
    mtch a s cp (fun s2 cp2 => k s2 ((i, s.take (s.length - s2.length)) :: cp2))

/-- Unanchored search: the leftmost starting position wins, and at that
position the preference order of `mtch` decides the captures. Models
`Regex::captures`. -/
def search (re : RE) : List Char → Option Caps
  | [] => mtch re [] [] (fun _ cp => some cp)
  | c :: r =>
    match mtch re (c :: r) [] (fun _ cp => some cp) with
    | some cps => some cps
    | none => search re r

/-- Look up capture group `i`. Models `Captures::get`. -/
def getCap (i : Nat) (cp : Caps) : Option (List Char) :=
  (List.find? (fun e => e.1 == i) cp).map (fun e => e.2)

/-! ## The five patterns of `parse_receipt_text` (lines 118-130) -/

/-- The class `[A-Za-zÄÖÜäöüß]`. -/
def clsLetterDE (c : Char) : Bool :=
  decide (('A' ≤ c ∧ c ≤ 'Z') ∨ ('a' ≤ c ∧ c ≤ 'z') ∨
    c ∈ ['Ä', 'Ö', 'Ü', 'ä', 'ö', 'ü', 'ß'])

/-- The class `[A-Za-zÄÖÜäöüß0-9\s\-.]`. -/
def clsNameDE (c : Char) : Bool :=
  clsLetterDE c || isDigitChar c || isWsChar c || decide (c = '-' ∨ c = '.')

/-- The class `[A-Za-zÄÖÜäöüß0-9\s\-.*]`. -/
def clsNameDEStar (c : Char) : Bool := clsNameDE c || decide (c = '*')

/-- The class `[A-Z]`. -/
def clsUpper (c : Char) : Bool := decide ('A' ≤ c ∧ c ≤ 'Z')

/-- The class `[A-Z0-9\s\-.]`. -/
def clsUpperName (c : Char) : Bool :=
  clsUpper c || isDigitChar c || isWsChar c || decide (c = '-' ∨ c = '.')

/-- `\s+` -/
def reWs1 : RE := .rep isWsChar 1 none

/-- `\d+` -/
def reDigits1 : RE := .rep isDigitChar 1 none

/-- `\d+[,.]\d{2}` -/
def rePrice : RE :=
  .seq reDigits1
    (.seq (.cls fun c => decide (c = ',' ∨ c = '.'))
      (.rep isDigitChar 2 (some 2)))

/-- `\d+[,.]?\d{2}` -/
def rePriceOptSep : RE :=
  .seq reDigits1
    (.seq (.opt (.cls fun c => decide (c = ',' ∨ c = '.')))
      (.rep isDigitChar 2 (some 2)))

/-- `(\d+|[IilL])` without the group wrapper. -/
def reQty : RE := .alt reDigits1 (.cls fun c => decide (c ∈ ['I', 'i', 'l', 'L']))

/-- Pattern 1 (`pattern_qty_total`, line 118):
`(\d+|[IilL])x?\s+([A-Za-zÄÖÜäöüß][A-Za-zÄÖÜäöüß0-9\s\-.]{2,40})\s+(?:a\s+)?(?:\d+[,.]\d{2}\s+)?(\d+[,.]\d{2})` -/
def patQtyTotal : RE :=
  .seq (.grp 1 reQty)
  (.seq (.opt (.cls fun c => decide (c = 'x')))
  (.seq reWs1
  (.seq (.grp 2 (.seq (.cls clsLetterDE) (.rep clsNameDE 2 (some 40))))
  (.seq reWs1
  (.seq (.opt (.seq (.cls fun c => decide (c = 'a')) reWs1))
  (.seq (.opt (.seq rePrice reWs1))
        (.grp 3 rePrice)))))))

/-- Pattern 2 (`pattern_euro`, line 121):
`(\d+)°?\s+([A-Z][A-Z0-9\s\-.]{2,30})\s+€(\d+[,.]?\d{2})` -/
def patEuro : RE :=
  .seq (.grp 1 reDigits1)
  (.seq (.opt (.cls fun c => decide (c = '°')))
  (.seq reWs1
  (.seq (.grp 2 (.seq (.cls clsUpper) (.rep clsUpperName 2 (some 30))))
  (.seq reWs1
  (.seq (.cls fun c => decide (c = '€'))
        (.grp 3 rePriceOptSep))))))

/-- Pattern 3 (`pattern_euro_simple`, line 124):
`([A-Z][A-Z0-9\s\-.]{2,30})\s+€(\d+[,.]?\d{2})` -/
def patEuroSimple : RE :=
  .seq (.grp 1 (.seq (.cls clsUpper) (.rep clsUpperName 2 (some 30))))
  (.seq reWs1
  (.seq (.cls fun c => decide (c = '€'))
        (.grp 2 rePriceOptSep)))

/-- Pattern 4 (`pattern_de_simple`, line 127):
`(\d+|[IilL])x?\s+([A-Za-zÄÖÜäöüß][A-Za-zÄÖÜäöüß0-9\s\-.*]{2,30})\s+(\d+[,.]\d{2})` -/
def patDeSimple : RE :=
  .seq (.grp 1 reQty)
  (.seq (.opt (.cls fun c => decide (c = 'x')))
  (.seq reWs1
  (.seq (.grp 2 (.seq (.cls clsLetterDE) (.rep clsNameDEStar 2 (some 30))))
  (.seq reWs1
        (.grp 3 rePrice)))))

/-- Pattern 5 (`pattern_fallback`, line 130):
`([A-Za-zÄÖÜäöüß][A-Za-zÄÖÜäöüß0-9\s\-.]{2,30})\s+(\d+[,.]\d{2})` -/
def patFallback : RE :=
  .seq (.grp 1 (.seq (.cls clsLetterDE) (.rep clsNameDE 2 (some 30))))
  (.seq reWs1 (.grp 2 rePrice))

/-! ## Normalizers, line classifier, per-line extraction -/

/-- Alias making the Rust name `char::is_numeric` visible; ASCII scope. -/
def isNumericChar (c : Char) : Bool := isDigitChar c

/-- The filter of `clean_product_name`: alphanumeric, whitespace, or one
of the characters of the literal "äöüßÄÖÜ". -/
def keepChar (c : Char) : Bool :=
  isAlnumChar c || isWsChar c || decide (c ∈ ['ä', 'ö', 'ü', 'ß', 'Ä', 'Ö', 'Ü'])

/-- Model of `clean_product_name` (lines 290-300): trim, lowercase,
filter `keepChar`, split on whitespace, join with single spaces. -/
def clean_product_name (n : List Char) : List Char :=
  joinSpace (splitWs (((trimList n).map lowerChar).filter keepChar))

/-- Model of `parse_quantity` (lines 217-223); its result is discarded by
the caller. -/
def parseU32 (s : List Char) : Option Nat :=
  let body := match s with | '+' :: r => r | r => r
  if ¬ body.isEmpty ∧ body.all isDigitChar ∧ digitsToNat body < 2 ^ 32 then
    some (digitsToNat body)
  else none

/-- Model of `parse_quantity`: OCR glyph fixes, then `u32` parse with
fallback 1. -/
def parse_quantity (q : List Char) : Nat :=
  let lq := lowerList q
  if lq = ('i' :: 'x' :: []) ∨ lq = ('l' :: 'x' :: []) ∨
     lq = ('i' :: []) ∨ lq = ('l' :: []) then 1
  else (parseU32 q).getD 1

/-- Model of `should_skip_line` (lines 225-277): the disjunction of the
boilerplate-token containment checks on the lowercased line, the
starts-with checks, the percent check, and the all-numeric-or-whitespace
check on the original line, in source order. -/
def should_skip_line (line : List Char) : Bool :=
  let ll := lowerList line
  containsSub ("total".data) ll ||
  containsSub ("subtotal".data) ll ||
  containsSub ("summe".data) ll ||
  containsSub ("netto".data) ll ||
  containsSub ("brutto".data) ll ||
  containsSub ("mwst".data) ll ||
  containsSub ("tax".data) ll ||
  containsSub ("steuer".data) ll ||
  containsSub ("change".data) ll ||
  containsSub ("wechselgeld".data) ll ||
  containsSub ("receipt".data) ll ||
  containsSub ("quittung".data) ll ||
  containsSub ("rechnung".data) ll ||
  containsSub ("datum".data) ll ||
  containsSub ("date".data) ll ||
  containsSub ("time".data) ll ||
  containsSub ("uhrzeit".data) ll ||
  containsSub ("tel:".data) ll ||
  containsSub ("telefon".data) ll ||
  containsSub ("adresse".data) ll ||
  containsSub ("address".data) ll ||
  containsSub ("vielen dank".data) ll ||
  containsSub ("danke".data) ll ||
  containsSub ("nr.".data) ll ||
  containsSub ("nummer".data) ll ||
  containsSub ("check:".data) ll ||
  containsSub ("authorization".data) ll ||
  containsSub ("approval".data) ll ||
  containsSub ("payment".data) ll ||
  containsSub ("card".data) ll ||
  containsSub ("gratuity".data) ll ||
  containsSub ("signature".data) ll ||
  containsSub ("customer copy".data) ll ||
  containsSub ("thanks".data) ll ||
  leadsWith ("#".data) ll ||
  leadsWith ("<<<".data) ll ||
  leadsWith ("888".data) ll ||
  containsSub ("inkl".data) ll ||
  containsSub ("gegeben".data) ll ||
  containsSub ("euro0".data) ll ||
  containsSub ("eur0".data) ll ||
  containsSub ("cust:".data) ll ||
  containsSub ("albany".data) ll ||
  containsSub ("street".data) ll ||
  containsSub ("nyc".data) ll ||
  containsSub ("food club".data) ll ||
  containsSub ("%".data) ll ||
  line.all (fun c => isNumericChar c || isWsChar c)

/-- A structured record: normalized name and price. Models `Product`. -/
structure Product where
  name : List Char
  price : Rat
  deriving DecidableEq, Repr

/-- The shared push logic of the branches for patterns 1 to 4: the price
capture must parse and pass the range gate `0.0 < p && p < 1000.0` (a
non-finite parse result always fails that gate). -/
def mkRecord (nm pr : List Char) : List Product :=
  match parse_european_price pr with
  | some (.fin q) =>
    if 0 < q ∧ q < 1000 then
      [{ name := clean_product_name nm, price := q }]
    else []
  | _ => []

/-- Branch for pattern 1 (lines 144-158): requires captures 1, 2, 3; the
quantity is parsed and discarded. -/
def branchQty (cp : Caps) : List Product :=
  match getCap 1 cp, getCap 2 cp, getCap 3 cp with
  | some qs, some nm, some pr =>
    let _ := parse_quantity qs
    mkRecord nm pr
  | _, _, _ => []

/-- Branch for pattern 2 (lines 159-171): requires captures 1, 2, 3. -/
def branchEuro (cp : Caps) : List Product :=
  match getCap 1 cp, getCap 2 cp, getCap 3 cp with
  | some _, some nm, some pr => mkRecord nm pr
  | _, _, _ => []

/-- Branch for pattern 3 (lines 172-183): requires captures 1, 2. -/
def branchEuroSimple (cp : Caps) : List Product :=
  match getCap 1 cp, getCap 2 cp with
  | some nm, some pr => mkRecord nm pr
  | _, _ => []

/-- Branch for pattern 4 (lines 184-196): requires captures 1, 2, 3. -/
def branchDeSimple (cp : Caps) : List Product :=
  match getCap 1 cp, getCap 2 cp, getCap 3 cp with
  | some _, some nm, some pr => mkRecord nm pr
  | _, _, _ => []

/-- Branch for pattern 5 (lines 197-211): the only branch with the name
gate — the trimmed name must be longer than 2 bytes and not consist
entirely of numeric characters, dots, commas and dashes. -/
def branchFallback (cp : Caps) : List Product :=
  match getCap 1 cp, getCap 2 cp with
  | some nm, some pr =>
    match parse_european_price pr with
    | some (.fin q) =>
      if 0 < q ∧ q < 1000 then
        if 2 < utf8Len (trimList nm) ∧
            ¬ ((trimList nm).all fun c =>
              isNumericChar c || decide (c = '.' ∨ c = ',' ∨ c = '-')) then
          [{ name := clean_product_name (trimList nm), price := q }]
        else []
      else []
    | _ => []
  | _, _ => []

/-- Per-line body of `parse_receipt_text` (lines 132-212): trim, length
gate, noise gate, then the five patterns in order — the first pattern
whose search succeeds selects its branch and short-circuits the rest. -/
def processLine (rawLine : List Char) : List Product :=
  let line := trimList rawLine
  if line.isEmpty ∨ utf8Len line < 4 then []
  else if should_skip_line line then []
  else
    match search patQtyTotal line with
    | some cp => branchQty cp
    | none =>
      match search patEuro line with
      | some cp => branchEuro cp
      | none =>
        match search patEuroSimple line with
        | some cp => branchEuroSimple cp
        | none =>
          match search patDeSimple line with
          | some cp => branchDeSimple cp
          | none =>
            match search patFallback line with
            | some cp => branchFallback cp
            | none => []

/-- Model of `parse_receipt_text`: the concatenation of the per-line
results over the lines of the text block. -/
def parse_receipt_text (text : List (List Char)) : List Product :=
  text.foldr (fun l acc => processLine l ++ acc) []

/-! ## The fuzzy aggregator: `aggregate_products` (lines 302-334)

The `HashMap<String, f64>` is modelled as an association list carried in
iteration order. Two aspects of the Rust program are abstract parameters:

- `score` models `SkimMatcherV2.fuzzy_match(existing_key, name)`, a
  third-party crate that is not part of this repository; the specification
  only fixes its contract (a similarity score on an arbitrary scale with
  the strict cutoff 80).
- `pos` models the slot (position in iteration order) that the `HashMap`
  gives a newly inserted key. In Rust this depends on a per-process random
  hash seed (`RandomState`), so two runs of the same binary may iterate
  the same keys in different orders; any slot choice is an admissible
  behaviour of the code.

Value-generic definitions (`absorbG`) are shared with an instrumented
variant that records, for every entry, the list of absorbed prices.
-/

/-- The keys of the aggregation state, in iteration order. -/
def keysOf {α : Type} (st : List (List Char × α)) : List (List Char) :=
  st.map (fun e => e.1)

/-- Is `k` a key of the state? -/
def keyMem {α : Type} (k : List Char) (st : List (List Char × α)) : Bool :=
  st.any (fun e => e.1 == k)

/-- The scan over `aggregated.keys()` (lines 312-320): state is
`(found_match, best_match_key, best_score)`, updated when the score is
strictly above 80 and strictly above the best so far. -/
def scanKeys (score : List Char → List Char → Option Int) (name : List Char) :
    List (List Char) → Bool × List Char × Int → Bool × List Char × Int
  | [], st => st
  | k :: rest, (found, bk, bs) =>
    match score k name with
    | some sc =>
      if 80 < sc ∧ bs < sc then scanKeys score name rest (true, k, sc)
      else scanKeys score name rest (found, bk, bs)
    | none => scanKeys score name rest (found, bk, bs)

/-- Apply `f` to the value of the (first) entry with key `k`; models
`*aggregated.get_mut(&k).unwrap() += price` when `k` is present. -/
def updEntry {α : Type} (k : List Char) (f : α → α) :
    List (List Char × α) → List (List Char × α)
  | [] => []
  | e :: r => if e.1 == k then (e.1, f e.2) :: r else e :: updEntry k f r

/-- Insert at position `n`, clamped to the end of the list. -/
def insAt {α : Type} : Nat → α → List α → List α
  | 0, a, l => a :: l
  | _ + 1, a, [] => [a]
  | n + 1, a, x :: l => x :: insAt n a l

/-- Model of `HashMap::insert`: replace the value in place when the key
is present, otherwise place the new entry at the abstract slot `n`. -/
def hmIns {α : Type} (n : Nat) (k : List Char) (v : α)
    (st : List (List Char × α)) : List (List Char × α) :=
  if keyMem k st then updEntry k (fun _ => v) st else insAt n (k, v) st

/-- One absorption step (lines 306-327), generic in the value type:
`mk` builds the value of a fresh entry from the price, `add` folds the
price into an existing value. -/
def absorbG {α : Type} (score : List Char → List Char → Option Int)
    (pos : List Char → List (List Char) → Nat) (mk : Rat → α)
    (add : α → Rat → α) (st : List (List Char × α)) (p : Product) :
    List (List Char × α) :=
  let r := scanKeys score p.name (keysOf st) (false, [], 0)
  if r.1 then updEntry r.2.1 (fun v => add v p.price) st
  else hmIns (pos p.name (keysOf st)) p.name (mk p.price) st

/-- One absorption step of the real program (values are running totals). -/
def aggStep (score : List Char → List Char → Option Int)
    (pos : List Char → List (List Char) → Nat)
    (st : List (List Char × Rat)) (p : Product) : List (List Char × Rat) :=
  absorbG score pos (fun q => q) (fun v q => v + q) st p

/-- The aggregation loop over all records, starting from the empty map. -/
def aggRun (score : List Char → List Char → Option Int)
    (pos : List Char → List (List Char) → Nat) (rs : List Product) :
    List (List Char × Rat) :=
  rs.foldl (aggStep score pos) []

/-- Stable insertion into a descending-by-total list: placed before the
first strictly smaller total, hence after all earlier entries with an
equal total. -/
def insDesc (x : List Char × Rat) :
    List (List Char × Rat) → List (List Char × Rat)
  | [] => [x]
  | y :: r => if y.2 < x.2 then x :: y :: r else y :: insDesc x r

/-- Model of `sorted.sort_by(|a, b| b.1.partial_cmp(&a.1).unwrap())`:
a stable descending sort by total. Rust uses a stable merge sort; any
stable sort computes the same function of the input list. -/
def sortDesc (l : List (List Char × Rat)) : List (List Char × Rat) :=
  l.foldl (fun acc x => insDesc x acc) []

/-- Model of `aggregate_products` (lines 302-334). -/
def aggregate_products (score : List Char → List Char → Option Int)
    (pos : List Char → List (List Char) → Nat) (rs : List Product) :
    List (List Char × Rat) :=
  sortDesc (aggRun score pos rs)

/-- Instrumented absorption: each entry keeps the list of absorbed
prices, in absorption order. -/
def aggAssignStep (score : List Char → List Char → Option Int)
    (pos : List Char → List (List Char) → Nat)
    (st : List (List Char × List Rat)) (p : Product) :
    List (List Char × List Rat) :=
  absorbG score pos (fun q => [q]) (fun l q => l ++ [q]) st p

/-- The instrumented aggregation loop. -/
def aggAssignRun (score : List Char → List Char → Option Int)
    (pos : List Char → List (List Char) → Nat) (rs : List Product) :
    List (List Char × List Rat) :=
  rs.foldl (aggAssignStep score pos) []

/-- Total of an assigned price list, in absorption order. -/
def sumL (l : List Rat) : Rat := l.foldl (fun a b => a + b) 0

/-- Collapse an instrumented entry to the entry of the real program. -/
def entrySum (e : List Char × List Rat) : List Char × Rat := (e.1, sumL e.2)

/-- All prices assigned across the entries of an instrumented state. -/
def priceBag : List (List Char × List Rat) → List Rat
  | [] => []
  | e :: r => e.2 ++ priceBag r

/-- The caller-side range gate `price > 0.0 && price < 1000.0` evaluated
on a parse result. With IEEE comparisons every non-finite value fails it:
`inf < 1000.0` is false, `-inf > 0.0` is false, and every comparison with
NaN is false. -/
def rangeGateB (v : RustFloatVal) : Bool :=
  match v with
  | .fin q => decide (0 < q ∧ q < 1000)
  | _ => false

/-- Modelled from the spec: the Skim scorer returns no score for a pair
of names that share no common subsequence, as with "abc" against "xyz";
for the C1 scenario it is the constant `none`. -/
def scoreNone : List Char → List Char → Option Int := fun _ _ => none

/-- A slot choice placing every fresh key at the front of the iteration
order (one admissible behaviour of the randomly seeded HashMap). -/
def posFront : List Char → List (List Char) → Nat := fun _ _ => 0

/-- A slot choice placing every fresh key at the back of the iteration
order (another admissible behaviour of the randomly seeded HashMap). -/
def posBack : List Char → List (List Char) → Nat := fun _ ks => ks.length

/-- The record sequence of the C1 scenario: two distinct product names
with equal prices. -/
def c1recs : List Product := [⟨("abc".data), 1⟩, ⟨("xyz".data), 1⟩]

/-- Modelled from the spec: a scorer that recognizes only identical
names, scoring them above the cutoff. Used as a concrete witness
instance. -/
def scoreSelf : List Char → List Char → Option Int :=
  fun a b => if a = b then some 100 else none

/-- A concrete witness scorer for the C8 scenario: scores the one
near-miss pair above the cutoff and nothing else. -/
def scoreC8 : List Char → List Char → Option Int :=
  fun a b =>
    if a = ("cheeseburger".data) ∧ b = ("cheesburger".data) then some 81
    else none

end RcptA

namespace RcptA

unseal Rat.add Rat.mul Rat.inv

set_option maxRecDepth 8000

/-! # Theorems -/

/-- C5: `parse_european_price` maps both "12,00" and "12.00" to the
numeric value 12.00, and returns an error for "12,0,0" and for "abc". -/
theorem c5_parse_european_price_examples :
    parse_european_price ("12,00".data) = some (.fin 12) ∧
    parse_european_price ("12.00".data) = some (.fin 12) ∧
    parse_european_price ("12,0,0".data) = none ∧
    parse_european_price ("abc".data) = none := by
  refine ⟨by decide, by decide, by decide, by decide⟩

/-- C6, counterexample: parsing the string "inf" succeeds with the
non-finite value positive infinity — `parse_european_price` contains no
finiteness check and does not return an error for every non-finite
result. -/
theorem c6_counterexample_inf :
    parse_european_price ("inf".data) = some RustFloatVal.pinf := by decide

/-- C6, amended: `parse_european_price` itself never rejects a
non-finite parse result (for example it returns Ok infinity on "inf");
instead, every parse result that passes the price range gate
`price > 0.0 && price < 1000.0` of its callers is a finite value. -/
theorem c6_range_gate_admits_only_finite (s : List Char) (v : RustFloatVal)
    (hp : parse_european_price s = some v) (hg : rangeGateB v = true) :
    ∃ q : Rat, v = .fin q ∧ 0 < q ∧ q < 1000 := by
  cases v with
  | fin q =>
    refine ⟨q, rfl, ?_⟩
    simpa [rangeGateB] using hg
  | pinf => simp [rangeGateB] at hg
  | ninf => simp [rangeGateB] at hg
  | nan => simp [rangeGateB] at hg

/-- Witness for C6 at the concrete input "12,00". -/
theorem c6_range_gate_admits_only_finite_w :
    ∃ q : Rat, RustFloatVal.fin 12 = .fin q ∧ 0 < q ∧ q < 1000 :=
  c6_range_gate_admits_only_finite ("12,00".data) (.fin 12)
    (by decide) (by decide)

/-- C1: the aggregate output depends on the HashMap iteration order. The
two slot choices `posFront` and `posBack` are both admissible behaviours
of the randomly seeded `HashMap` within a single fixed input order, yet
they produce different outputs (the same entries, in different order):
with the equal totals of `c1recs`, the stable descending sort keeps the
iteration order of the two keys, which the hash seed controls. So two
runs over the identical record sequence need not be byte-identical. -/
theorem c1_output_depends_on_hash_seed :
    aggregate_products scoreNone posFront c1recs ≠
      aggregate_products scoreNone posBack c1recs ∧
    (aggregate_products scoreNone posFront c1recs).Perm
      (aggregate_products scoreNone posBack c1recs) := by
  refine ⟨by decide, by decide⟩

/-- C3: on the line "4x Löwenbräu Original a 3,00 12,00" the first, most
specific pattern matches and its branch selects the line total 12.00
(not the unit price 3,00) — but the greedy name capture of group 2
also absorbs the separator "a", so the produced record is named
"löwenbräu original a", not "löwenbräu original" as the spec requires. -/
theorem c3_qty_total_line_eval :
    (search patQtyTotal
      (trimList ("4x Löwenbräu Original a 3,00 12,00".data))).isSome = true ∧
    processLine ("4x Löwenbräu Original a 3,00 12,00".data) =
      [⟨("löwenbräu original a".data), 12⟩] ∧
    ("löwenbräu original a".data) ≠ ("löwenbräu original".data) := by
  refine ⟨by decide, by decide, by decide⟩

/-- C4, counterexample: on the line "1x Ab  3,00" pattern 1 matches with
name capture "Ab " whose trimmed length is 2 (shorter than 3), and the
branch for pattern 1 nevertheless produces a record — the name-discard
condition is not applied to that pattern. -/
theorem c4_counterexample_short_name :
    (search patQtyTotal (trimList ("1x Ab  3,00".data))).bind (getCap 2) =
      some ("Ab ".data) ∧
    utf8Len (trimList ("Ab ".data)) < 3 ∧
    processLine ("1x Ab  3,00".data) = [⟨("ab".data), 3⟩] := by
  refine ⟨by decide, by decide, by decide⟩

/-- Helper: every record that `mkRecord` produces has a price inside the
open range `(0, 1000)`. -/
theorem mem_mkRecord_price {nm pr : List Char} {p : Product}
    (hp : p ∈ mkRecord nm pr) : 0 < p.price ∧ p.price < 1000 := by
  unfold mkRecord at hp
  split at hp
  · rename_i q
    split at hp
    · rename_i hq
      rcases List.mem_singleton.mp hp with rfl
      exact hq
    · exact absurd hp (List.not_mem_nil p)
  · exact absurd hp (List.not_mem_nil p)

/-- Helper: the branch of pattern 1 respects the price range gate. -/
theorem mem_branchQty_price {cp : Caps} {p : Product}
    (hp : p ∈ branchQty cp) : 0 < p.price ∧ p.price < 1000 := by
  unfold branchQty at hp
  split at hp
  · exact mem_mkRecord_price hp
  · exact absurd hp (List.not_mem_nil p)

/-- Helper: the branch of pattern 2 respects the price range gate. -/
theorem mem_branchEuro_price {cp : Caps} {p : Product}
    (hp : p ∈ branchEuro cp) : 0 < p.price ∧ p.price < 1000 := by
  unfold branchEuro at hp
  split at hp
  · exact mem_mkRecord_price hp
  · exact absurd hp (List.not_mem_nil p)

/-- Helper: the branch of pattern 3 respects the price range gate. -/
theorem mem_branchEuroSimple_price {cp : Caps} {p : Product}
    (hp : p ∈ branchEuroSimple cp) : 0 < p.price ∧ p.price < 1000 := by
  unfold branchEuroSimple at hp
  split at hp
  · exact mem_mkRecord_price hp
  · exact absurd hp (List.not_mem_nil p)

/-- Helper: the branch of pattern 4 respects the price range gate. -/
theorem mem_branchDeSimple_price {cp : Caps} {p : Product}
    (hp : p ∈ branchDeSimple cp) : 0 < p.price ∧ p.price < 1000 := by
  unfold branchDeSimple at hp
  split at hp
  · exact mem_mkRecord_price hp
  · exact absurd hp (List.not_mem_nil p)

/-- Helper: the fallback branch respects the price range gate. -/
theorem mem_branchFallback_price {cp : Caps} {p : Product}
    (hp : p ∈ branchFallback cp) : 0 < p.price ∧ p.price < 1000 := by
  unfold branchFallback at hp
  split at hp
  · split at hp
    · rename_i q
      split at hp
      · rename_i hq
        split at hp
        · rcases List.mem_singleton.mp hp with rfl
          exact hq
        · exact absurd hp (List.not_mem_nil p)
      · exact absurd hp (List.not_mem_nil p)
    · exact absurd hp (List.not_mem_nil p)
  · exact absurd hp (List.not_mem_nil p)

/-- C4, amended: the price validation and the range gate
`0.0 < price < 1000.0` apply to the matches of every pattern, but the
name-discard condition (trimmed name at most 2 bytes long, or consisting
entirely of numeric characters, dots, commas and dashes) is enforced only
for the fallback pattern: a line whose first match is the fallback
pattern yields no record when its name capture fails that condition. -/
theorem c4_price_gate_uniform_name_gate_fallback_only :
    (∀ (line : List Char) (p : Product), p ∈ processLine line →
      0 < p.price ∧ p.price < 1000) ∧
    (∀ line : List Char,
      search patQtyTotal (trimList line) = none →
      search patEuro (trimList line) = none →
      search patEuroSimple (trimList line) = none →
      search patDeSimple (trimList line) = none →
      ∀ nm : List Char,
        (search patFallback (trimList line)).bind (getCap 1) = some nm →
        (utf8Len (trimList nm) ≤ 2 ∨
          ((trimList nm).all fun c =>
            isNumericChar c || decide (c = '.' ∨ c = ',' ∨ c = '-')) = true) →
        processLine line = []) := by
  constructor
  · intro line p hp
    simp only [processLine] at hp
    split at hp
    · exact absurd hp (List.not_mem_nil p)
    · split at hp
      · exact absurd hp (List.not_mem_nil p)
      · split at hp
        · exact mem_branchQty_price hp
        · split at hp
          · exact mem_branchEuro_price hp
          · split at hp
            · exact mem_branchEuroSimple_price hp
            · split at hp
              · exact mem_branchDeSimple_price hp
              · split at hp
                · exact mem_branchFallback_price hp
                · exact absurd hp (List.not_mem_nil p)
  · intro line h1 h2 h3 h4 nm h5 h6
    simp only [processLine, h1, h2, h3, h4]
    split
    · rfl
    · split
      · rfl
      · cases hcp : search patFallback (trimList line) with
        | none => rfl
        | some cp =>
          rw [hcp] at h5
          simp only [Option.some_bind] at h5
          simp only [branchFallback, h5]
          cases hpr : getCap 2 cp with
          | none => rfl
          | some pr =>
            dsimp only
            cases hv : parse_european_price pr with
            | none => rfl
            | some v =>
              cases v with
              | fin q =>
                dsimp only
                have hgate : ¬ (2 < utf8Len (trimList nm) ∧
                    ¬ ((trimList nm).all fun c =>
                      isNumericChar c ||
                        decide (c = '.' ∨ c = ',' ∨ c = '-')) = true) := by
                  rcases h6 with h6 | h6
                  · intro hcon
                    omega
                  · intro hcon
                    exact hcon.2 h6
                rw [if_neg hgate, ite_self]
              | pinf => rfl
              | ninf => rfl
              | nan => rfl

/-- Witness for C4 at the lines "1x Ab  3,00" (price inside the gate)
and "Ab  3,00" (fallback match with a 2-byte name, no record). -/
theorem c4_price_gate_uniform_name_gate_fallback_only_w :
    (0 < (⟨("ab".data), 3⟩ : Product).price ∧
      (⟨("ab".data), 3⟩ : Product).price < 1000) ∧
    processLine ("Ab  3,00".data) = [] := by
  constructor
  · exact c4_price_gate_uniform_name_gate_fallback_only.1
      ("1x Ab  3,00".data) ⟨("ab".data), 3⟩ (by decide)
  · exact c4_price_gate_uniform_name_gate_fallback_only.2
      ("Ab  3,00".data) (by decide) (by decide) (by decide) (by decide)
      ("Ab ".data) (by decide) (Or.inl (by decide))

/-- Helper: `containsSub` decides contiguous-substring containment. -/
theorem containsSub_iff {t l : List Char} : containsSub t l = true ↔ t <:+: l := by
  induction l with
  | nil => simp [containsSub, List.isEmpty_iff]
  | cons c r ih =>
    simp only [containsSub, Bool.or_eq_true, List.isPrefixOf_iff_prefix, ih]
    rw [List.infix_cons_iff]

/-- Helper: lowercasing does not change whitespace classification. -/
theorem isWsChar_lowerChar (c : Char) : isWsChar (lowerChar c) = isWsChar c := by
  unfold lowerChar
  cases hf : lowerPairs.find? (fun p => p.1 == c) with
  | none => rfl
  | some p =>
    have hmem : p ∈ lowerPairs := List.mem_of_find?_eq_some hf
    have hpc : p.1 = c := by
      have h := List.find?_some hf
      simpa using h
    have hws : ∀ q ∈ lowerPairs, isWsChar q.1 = false ∧ isWsChar q.2 = false := by
      decide
    rw [(hws p hmem).2, ← hpc, (hws p hmem).1]

/-- Helper: trimming commutes with lowercasing. -/
theorem trimList_lowerList (l : List Char) :
    trimList (lowerList l) = lowerList (trimList l) := by
  unfold trimList lowerList
  have hws : (isWsChar ∘ lowerChar) = isWsChar := funext isWsChar_lowerChar
  rw [List.dropWhile_map, hws, ← List.map_reverse, List.dropWhile_map, hws,
    ← List.map_reverse]

/-- Helper: a sub-list whose first character is not whitespace survives
`dropWhile`. -/
theorem infix_dropWhile_isWsChar {t l : List Char} (hne : t ≠ [])
    (hhd : ∀ c, t.head? = some c → isWsChar c = false) (h : t <:+: l) :
    t <:+: List.dropWhile isWsChar l := by
  obtain ⟨a, b, rfl⟩ := h
  cases t with
  | nil => exact absurd rfl hne
  | cons c t2 =>
    have hc : isWsChar c = false := hhd c rfl
    rw [List.append_assoc, List.dropWhile_append]
    split
    · rw [List.cons_append, List.dropWhile_cons_of_neg (by simp [hc])]
      exact ⟨[], b, by simp⟩
    · exact ⟨List.dropWhile isWsChar a, b, by rw [List.append_assoc]⟩

/-- Helper: a sub-list with non-whitespace first and last characters
survives trimming. -/
theorem infix_trimList {t l : List Char} (hne : t ≠ [])
    (hhd : ∀ c, t.head? = some c → isWsChar c = false)
    (hla : ∀ c, t.getLast? = some c → isWsChar c = false) (h : t <:+: l) :
    t <:+: trimList l := by
  unfold trimList
  have h1 := infix_dropWhile_isWsChar hne hhd h
  have h2 := List.IsInfix.reverse h1
  have h3 := infix_dropWhile_isWsChar (by simpa using hne)
    (by
      intro c hc
      rw [List.head?_reverse] at hc
      exact hla c hc) h2
  have h4 := List.IsInfix.reverse h3
  simpa using h4

/-- Helper: containment of a token with non-whitespace endpoints in the
lowercased line implies its containment in the lowercased trimmed line. -/
theorem containsSub_lower_trim (tok line : List Char) (hne : tok ≠ [])
    (hhd : ∀ c, tok.head? = some c → isWsChar c = false)
    (hla : ∀ c, tok.getLast? = some c → isWsChar c = false)
    (h : containsSub tok (lowerList line) = true) :
    containsSub tok (lowerList (trimList line)) = true := by
  have hinf := containsSub_iff.mp h
  have h2 := infix_trimList hne hhd hla hinf
  rw [trimList_lowerList] at h2
  exact containsSub_iff.mpr h2

/-- C10: every line that, case-insensitively, contains one of the noise
tokens "albany", "street", "nyc" or "food club" is classified as noise by
`should_skip_line`, and the per-line extraction of `parse_receipt_text`
yields no record from it, whatever else the line contains. -/
theorem c10_extra_noise_tokens_suppress_records (line : List Char)
    (h : containsSub ("albany".data) (lowerList line) = true ∨
         containsSub ("street".data) (lowerList line) = true ∨
         containsSub ("nyc".data) (lowerList line) = true ∨
         containsSub ("food club".data) (lowerList line) = true) :
    should_skip_line (trimList line) = true ∧ processLine line = [] := by
  have hskip : should_skip_line (trimList line) = true := by
    rcases h with h | h | h | h
    · have h3 := containsSub_lower_trim _ _ (by decide) (by decide) (by decide) h
      simp [should_skip_line, h3]
    · have h3 := containsSub_lower_trim _ _ (by decide) (by decide) (by decide) h
      simp [should_skip_line, h3]
    · have h3 := containsSub_lower_trim _ _ (by decide) (by decide) (by decide) h
      simp [should_skip_line, h3]
    · have h3 := containsSub_lower_trim _ _ (by decide) (by decide) (by decide) h
      simp [should_skip_line, h3]
  refine ⟨hskip, ?_⟩
  simp only [processLine, hskip]
  split
  · rfl
  · rfl

/-- Witness for C10 at the line "123 Main Street 12,00". -/
theorem c10_extra_noise_tokens_suppress_records_w :
    should_skip_line (trimList ("123 Main Street 12,00".data)) = true ∧
    processLine ("123 Main Street 12,00".data) = [] :=
  c10_extra_noise_tokens_suppress_records ("123 Main Street 12,00".data)
    (Or.inr (Or.inl (by decide)))

/-- Helper: inserting into the empty list gives the singleton, for every
slot. -/
theorem insAt_nil {α : Type} (n : Nat) (x : α) : insAt n x [] = [x] := by
  cases n <;> rfl

/-- Helper: inserting into a one-element list lands in one of the two
possible orders. -/
theorem insAt_single {α : Type} (n : Nat) (x y : α) :
    insAt n x [y] = [x, y] ∨ insAt n x [y] = [y, x] := by
  cases n with
  | zero => exact Or.inl rfl
  | succ m =>
    refine Or.inr ?_
    show y :: insAt m x [] = [y, x]
    rw [insAt_nil]

/-- C8: absorbing the records ("cheeseburger", 1.19) then
("cheesburger", 1.19), whose similarity score strictly exceeds 80, yields
the single aggregate entry ("cheeseburger", 2.38); absorbing a further
("fries", 2.50), which does not score above 80 against the existing key,
creates a second, separate entry with total 2.50 — for every admissible
scorer and every HashMap slot behaviour. -/
theorem c8_fuzzy_merge_and_fresh_entry
    (score : List Char → List Char → Option Int)
    (pos : List Char → List (List Char) → Nat)
    (h1 : ∃ s, score ("cheeseburger".data) ("cheesburger".data) = some s ∧
      80 < s)
    (h2 : ∀ t, score ("cheeseburger".data) ("fries".data) = some t →
      t ≤ 80) :
    aggregate_products score pos
      [⟨("cheeseburger".data), 119/100⟩, ⟨("cheesburger".data), 119/100⟩] =
      [(("cheeseburger".data), 238/100)] ∧
    aggregate_products score pos
      [⟨("cheeseburger".data), 119/100⟩, ⟨("cheesburger".data), 119/100⟩,
        ⟨("fries".data), 5/2⟩] =
      [(("fries".data), 5/2), (("cheeseburger".data), 238/100)] := by
  obtain ⟨s, hs, hs80⟩ := h1
  have hs0 : (0 : Int) < s := lt_trans (by decide) hs80
  have hstep1 : aggStep score pos [] ⟨("cheeseburger".data), 119/100⟩ =
      [(("cheeseburger".data), (119 : Rat)/100)] := by
    simp [aggStep, absorbG, scanKeys, keysOf, hmIns, keyMem, insAt_nil]
  have hscan2 : scanKeys score ("cheesburger".data)
      [("cheeseburger".data)] (false, [], 0) =
      (true, ("cheeseburger".data), s) := by
    simp only [scanKeys, hs]
    rw [if_pos ⟨hs80, hs0⟩]
  have hstep2 : aggStep score pos [(("cheeseburger".data), (119 : Rat)/100)]
      ⟨("cheesburger".data), 119/100⟩ =
      [(("cheeseburger".data), (238 : Rat)/100)] := by
    simp only [aggStep, absorbG, keysOf, List.map_cons, List.map_nil,
      hscan2]
    simp [updEntry]
    norm_num
  have hscan3 : scanKeys score ("fries".data)
      [("cheeseburger".data)] (false, [], 0) = (false, [], 0) := by
    cases hfs : score ("cheeseburger".data) ("fries".data) with
    | none => simp [scanKeys, hfs]
    | some t =>
      simp only [scanKeys, hfs]
      rw [if_neg]
      intro hcon
      exact absurd hcon.1 (not_lt.mpr (h2 t hfs))
  have hstep3 : aggStep score pos [(("cheeseburger".data), (238 : Rat)/100)]
      ⟨("fries".data), 5/2⟩ =
      insAt (pos ("fries".data) [("cheeseburger".data)])
        (("fries".data), (5 : Rat)/2)
        [(("cheeseburger".data), (238 : Rat)/100)] := by
    have hkm : keyMem ("fries".data)
        [(("cheeseburger".data), (238 : Rat)/100)] = false := by decide
    simp only [aggStep, absorbG, keysOf, List.map_cons, List.map_nil,
      hscan3]
    simp [hmIns, hkm]
  have hrun2 : aggRun score pos
      [⟨("cheeseburger".data), 119/100⟩, ⟨("cheesburger".data), 119/100⟩] =
      [(("cheeseburger".data), (238 : Rat)/100)] := by
    simp only [aggRun, List.foldl_cons, List.foldl_nil, hstep1, hstep2]
  constructor
  · rw [aggregate_products, hrun2]
    decide
  · have hrun3 : aggRun score pos
        [⟨("cheeseburger".data), 119/100⟩, ⟨("cheesburger".data), 119/100⟩,
          ⟨("fries".data), 5/2⟩] =
        insAt (pos ("fries".data) [("cheeseburger".data)])
          (("fries".data), (5 : Rat)/2)
          [(("cheeseburger".data), (238 : Rat)/100)] := by
      simp only [aggRun, List.foldl_cons, List.foldl_nil, hstep1, hstep2,
        hstep3]
    rw [aggregate_products, hrun3]
    rcases insAt_single (pos ("fries".data) [("cheeseburger".data)])
      (("fries".data), (5 : Rat)/2)
      (("cheeseburger".data), (238 : Rat)/100) with hi | hi
    · rw [hi]
      decide
    · rw [hi]
      decide

/-- Witness for C8: the concrete scorer `scoreC8` scores the near-miss
pair 81 and everything else none; fresh keys go to the front slot. -/
theorem c8_fuzzy_merge_and_fresh_entry_w :
    aggregate_products scoreC8 posFront
      [⟨("cheeseburger".data), 119/100⟩, ⟨("cheesburger".data), 119/100⟩] =
      [(("cheeseburger".data), 238/100)] ∧
    aggregate_products scoreC8 posFront
      [⟨("cheeseburger".data), 119/100⟩, ⟨("cheesburger".data), 119/100⟩,
        ⟨("fries".data), 5/2⟩] =
      [(("fries".data), 5/2), (("cheeseburger".data), 238/100)] := by
  refine c8_fuzzy_merge_and_fresh_entry scoreC8 posFront
    ⟨81, by decide, by decide⟩ ?_
  intro t ht
  have hn : scoreC8 ("cheeseburger".data) ("fries".data) = none := by decide
  rw [hn] at ht
  exact absurd ht (Option.noConfusion)

/-- Helper: the head of a list is a member. -/
theorem mem_of_head?_eq_some {α : Type} {l : List α} {a : α}
    (h : l.head? = some a) : a ∈ l := by
  cases l with
  | nil => cases h
  | cons x r =>
    simp only [List.head?_cons, Option.some.injEq] at h
    exact h ▸ List.mem_cons_self x r

/-- Helper: the last element of a list is a member. -/
theorem mem_of_getLast?_eq_some {α : Type} {l : List α} {a : α}
    (h : l.getLast? = some a) : a ∈ l := by
  have h2 : l.reverse.head? = some a := by
    rw [List.head?_reverse]
    exact h
  exact List.mem_reverse.mp (mem_of_head?_eq_some h2)

/-- Helper: mapping a function that fixes every element is the identity. -/
theorem map_eq_self_of {α : Type} {f : α → α} {l : List α}
    (h : ∀ a ∈ l, f a = a) : l.map f = l := by
  induction l with
  | nil => rfl
  | cons x r ih =>
    rw [List.map_cons, h x (List.mem_cons_self x r),
      ih fun a ha => h a (List.mem_cons_of_mem x ha)]

/-- Helper: `lowerChar` evaluates to the found table entry. -/
theorem lowerChar_eq_of_find?_some {c : Char} {p : Char × Char}
    (hf : lowerPairs.find? (fun q => q.1 == c) = some p) :
    lowerChar c = p.2 := by
  unfold lowerChar
  rw [hf]

/-- Helper: `lowerChar` fixes characters outside the table. -/
theorem lowerChar_eq_of_find?_none {c : Char}
    (hf : lowerPairs.find? (fun q => q.1 == c) = none) : lowerChar c = c := by
  unfold lowerChar
  rw [hf]

/-- Helper: lowercasing a character twice is the same as once (the table
values are not themselves table keys). -/
theorem lowerChar_idem (c : Char) : lowerChar (lowerChar c) = lowerChar c := by
  have htab : ∀ p ∈ lowerPairs,
      lowerPairs.find? (fun q => q.1 == p.2) = none := by decide
  cases hf : lowerPairs.find? (fun q => q.1 == c) with
  | none =>
    have hc := lowerChar_eq_of_find?_none hf
    rw [hc, hc]
  | some p =>
    have hc := lowerChar_eq_of_find?_some hf
    have hmem := List.mem_of_find?_eq_some hf
    rw [hc, lowerChar_eq_of_find?_none (htab p hmem)]

/-- Helper: the words of `splitWsAux` are nonempty and whitespace-free,
provided the accumulator is whitespace-free. -/
theorem splitWsAux_words : ∀ (l acc : List Char),
    (∀ c ∈ acc, isWsChar c = false) →
    ∀ w ∈ splitWsAux l acc, w ≠ [] ∧ ∀ c ∈ w, isWsChar c = false
  | [], acc, hacc, w, hw => by
    simp only [splitWsAux] at hw
    split at hw
    · exact absurd hw (List.not_mem_nil w)
    · rename_i hne
      rcases List.mem_singleton.mp hw with rfl
      refine ⟨?_, ?_⟩
      · simp only [ne_eq, List.reverse_eq_nil_iff]
        intro h
        exact hne (by simp [h])
      · intro c hc
        exact hacc c (List.mem_reverse.mp hc)
  | x :: r, acc, hacc, w, hw => by
    simp only [splitWsAux] at hw
    by_cases hx : isWsChar x = true
    · rw [if_pos hx] at hw
      by_cases hacc0 : acc.isEmpty = true
      · rw [if_pos hacc0] at hw
        exact splitWsAux_words r [] (by intro c hc; cases hc) w hw
      · rw [if_neg hacc0] at hw
        rcases List.mem_cons.mp hw with rfl | hw2
        · refine ⟨?_, ?_⟩
          · simp only [ne_eq, List.reverse_eq_nil_iff]
            intro h
            exact hacc0 (by simp [h])
          · intro c hc
            exact hacc c (List.mem_reverse.mp hc)
        · exact splitWsAux_words r [] (by intro c hc; cases hc) w hw2
    · rw [if_neg hx] at hw
      refine splitWsAux_words r (x :: acc) ?_ w hw
      intro c hc
      rcases List.mem_cons.mp hc with rfl | hc2
      · simp only [Bool.not_eq_true] at hx
        exact hx
      · exact hacc c hc2

/-- Helper: every character of a word of `splitWsAux` comes from the
input or the accumulator. -/
theorem splitWsAux_subset : ∀ (l acc : List Char), ∀ w ∈ splitWsAux l acc,
    ∀ c ∈ w, c ∈ l ∨ c ∈ acc
  | [], _, w, hw, c, hc => by
    simp only [splitWsAux] at hw
    split at hw
    · exact absurd hw (List.not_mem_nil w)
    · rcases List.mem_singleton.mp hw with rfl
      exact Or.inr (List.mem_reverse.mp hc)
  | x :: r, acc, w, hw, c, hc => by
    simp only [splitWsAux] at hw
    by_cases hx : isWsChar x = true
    · rw [if_pos hx] at hw
      by_cases hacc0 : acc.isEmpty = true
      · rw [if_pos hacc0] at hw
        rcases splitWsAux_subset r [] w hw c hc with h | h
        · exact Or.inl (List.mem_cons_of_mem x h)
        · cases h
      · rw [if_neg hacc0] at hw
        rcases List.mem_cons.mp hw with rfl | hw2
        · exact Or.inr (List.mem_reverse.mp hc)
        · rcases splitWsAux_subset r [] w hw2 c hc with h | h
          · exact Or.inl (List.mem_cons_of_mem x h)
          · cases h
    · rw [if_neg hx] at hw
      rcases splitWsAux_subset r (x :: acc) w hw c hc with h | h
      · exact Or.inl (List.mem_cons_of_mem x h)
      · rcases List.mem_cons.mp h with rfl | h2
        · exact Or.inl (List.mem_cons_self c r)
        · exact Or.inr h2

/-- Helper: `splitWsAux` walks through a whitespace-free block by moving
it into the accumulator. -/
theorem splitWsAux_append_nonws : ∀ (w : List Char),
    (∀ c ∈ w, isWsChar c = false) → ∀ (s acc : List Char),
    splitWsAux (w ++ s) acc = splitWsAux s (w.reverse ++ acc)
  | [], _, s, acc => by simp
  | c :: t, hw, s, acc => by
    have hc : isWsChar c = false := hw c (List.mem_cons_self c t)
    rw [List.cons_append]
    show (if isWsChar c = true then _ else splitWsAux (t ++ s) (c :: acc)) = _
    rw [if_neg (by simp [hc])]
    rw [splitWsAux_append_nonws t
      (fun d hd => hw d (List.mem_cons_of_mem c hd)) s (c :: acc)]
    simp

/-- Helper: splitting the space-joined words recovers them, when each
word is nonempty and whitespace-free. -/
theorem splitWs_joinSpace : ∀ ws : List (List Char),
    (∀ w ∈ ws, w ≠ [] ∧ ∀ c ∈ w, isWsChar c = false) →
    splitWs (joinSpace ws) = ws
  | [], _ => rfl
  | w :: rest, h => by
    obtain ⟨hwne, hwc⟩ := h w (List.mem_cons_self w rest)
    cases rest with
    | nil =>
      have hj : joinSpace [w] = w := by
        simp [joinSpace]
      have h1 : splitWsAux (w ++ []) [] = splitWsAux [] (w.reverse ++ []) :=
        splitWsAux_append_nonws w hwc [] []
      rw [List.append_nil, List.append_nil] at h1
      unfold splitWs
      rw [hj, h1]
      simp only [splitWsAux]
      rw [if_neg (by simp [List.isEmpty_iff, hwne])]
      rw [List.reverse_reverse]
    | cons x rest2 =>
      have hfold : joinSpace (w :: x :: rest2) =
          w ++ (' ' :: joinSpace (x :: rest2)) := rfl
      unfold splitWs
      rw [hfold, splitWsAux_append_nonws w hwc _ [], List.append_nil]
      simp only [splitWsAux]
      rw [if_pos (by decide : isWsChar ' ' = true)]
      rw [if_neg (by simp [List.isEmpty_iff, hwne])]
      rw [List.reverse_reverse]
      rw [show splitWsAux (joinSpace (x :: rest2)) [] =
          splitWs (joinSpace (x :: rest2)) from rfl]
      rw [splitWs_joinSpace (x :: rest2)
        (fun v hv => h v (List.mem_cons_of_mem w hv))]

/-- Helper: a character of the space-joined words is a space or a word
character. -/
theorem mem_joinSpace : ∀ (ws : List (List Char)) (c : Char),
    c ∈ joinSpace ws → c = ' ' ∨ ∃ w, w ∈ ws ∧ c ∈ w
  | [], _, hc => by cases hc
  | w :: rest, c, hc => by
    have hc2 : c ∈ w ++ (rest.foldr (fun x acc => (' ' :: x) ++ acc) []) := hc
    rcases List.mem_append.mp hc2 with h | h
    · exact Or.inr ⟨w, List.mem_cons_self w rest, h⟩
    · cases rest with
      | nil => cases h
      | cons x rest2 =>
        have h3 : c ∈ ' ' :: joinSpace (x :: rest2) := h
        rcases List.mem_cons.mp h3 with rfl | h4
        · exact Or.inl rfl
        · rcases mem_joinSpace (x :: rest2) c h4 with h5 | ⟨v, hv, hcv⟩
          · exact Or.inl h5
          · exact Or.inr ⟨v, List.mem_cons_of_mem w hv, hcv⟩

/-- Helper: a list with non-whitespace head and last characters is
fixed by trimming. -/
theorem trimList_eq_self {l : List Char}
    (hhd : ∀ c, l.head? = some c → isWsChar c = false)
    (hla : ∀ c, l.getLast? = some c → isWsChar c = false) :
    trimList l = l := by
  unfold trimList
  have h1 : List.dropWhile isWsChar l = l := by
    cases l with
    | nil => rfl
    | cons c r => rw [List.dropWhile_cons_of_neg (by simp [hhd c rfl])]
  rw [h1]
  have h2 : List.dropWhile isWsChar l.reverse = l.reverse := by
    cases hr : l.reverse with
    | nil => rfl
    | cons c r =>
      have hlast : l.getLast? = some c := by
        rw [← List.head?_reverse, hr]
        rfl
      rw [List.dropWhile_cons_of_neg (by simp [hla c hlast])]
  rw [h2, List.reverse_reverse]

/-- Helper: the head of the space-joined words is not whitespace. -/
theorem head?_joinSpace_nonws (ws : List (List Char))
    (h : ∀ w ∈ ws, w ≠ [] ∧ ∀ c ∈ w, isWsChar c = false) :
    ∀ c, (joinSpace ws).head? = some c → isWsChar c = false := by
  intro c hc
  cases ws with
  | nil => cases hc
  | cons w rest =>
    obtain ⟨hwne, hwc⟩ := h w (List.mem_cons_self w rest)
    cases w with
    | nil => exact absurd rfl hwne
    | cons d t =>
      have : (joinSpace ((d :: t) :: rest)).head? = some d := rfl
      rw [this] at hc
      injection hc with hdc
      rw [← hdc]
      exact hwc d (List.mem_cons_self d t)

/-- Helper: consing onto a nonempty list keeps its last element. -/
theorem getLast?_cons_of_ne_nil {α : Type} (a : α) {l : List α}
    (h : l ≠ []) : (a :: l).getLast? = l.getLast? := by
  cases hg : l.getLast? with
  | none => exact absurd (List.getLast?_eq_none_iff.mp hg) h
  | some e =>
    rw [show (a :: l) = [a] ++ l from rfl, List.getLast?_append, hg]
    rfl

/-- Helper: the last character of the space-joined words is not
whitespace. -/
theorem getLast?_joinSpace_nonws : ∀ ws : List (List Char),
    (∀ w ∈ ws, w ≠ [] ∧ ∀ c ∈ w, isWsChar c = false) →
    ∀ c, (joinSpace ws).getLast? = some c → isWsChar c = false
  | [], _, c, hc => by cases hc
  | [w], h, c, hc => by
    obtain ⟨hwne, hwc⟩ := h w (List.mem_cons_self w [])
    have hj : joinSpace [w] = w := by simp [joinSpace]
    rw [hj] at hc
    exact hwc c (mem_of_getLast?_eq_some hc)
  | w :: x :: rest2, h, c, hc => by
    obtain ⟨hxne, _⟩ :=
      h x (List.mem_cons_of_mem w (List.mem_cons_self x rest2))
    have hfold : joinSpace (w :: x :: rest2) =
        w ++ (' ' :: joinSpace (x :: rest2)) := rfl
    have hne2 : joinSpace (x :: rest2) ≠ [] := by
      have hj : joinSpace (x :: rest2) =
          x ++ (rest2.foldr (fun y acc => (' ' :: y) ++ acc) []) := rfl
      rw [hj]
      intro hcon
      exact hxne (List.append_eq_nil.mp hcon).1
    rw [hfold, List.getLast?_append,
      getLast?_cons_of_ne_nil ' ' hne2] at hc
    cases hg : (joinSpace (x :: rest2)).getLast? with
    | none => exact absurd (List.getLast?_eq_none_iff.mp hg) hne2
    | some e =>
      rw [hg] at hc
      have h5 : some e = some c := hc
      cases h5
      exact getLast?_joinSpace_nonws (x :: rest2)
        (fun v hv => h v (List.mem_cons_of_mem w hv)) c hg

/-- Helper: `clean_product_name` fixes a space-join of nonempty,
whitespace-free, lowercase-fixed, filter-surviving words. -/
theorem clean_product_name_joinSpace (ws : List (List Char))
    (h1 : ∀ w ∈ ws, w ≠ [] ∧ ∀ c ∈ w, isWsChar c = false)
    (h2 : ∀ w ∈ ws, ∀ c ∈ w, lowerChar c = c)
    (h3 : ∀ w ∈ ws, ∀ c ∈ w, keepChar c = true) :
    clean_product_name (joinSpace ws) = joinSpace ws := by
  unfold clean_product_name
  rw [trimList_eq_self (head?_joinSpace_nonws ws h1)
    (getLast?_joinSpace_nonws ws h1)]
  rw [map_eq_self_of (by
    intro c hc
    rcases mem_joinSpace ws c hc with rfl | ⟨w, hw, hcw⟩
    · decide
    · exact h2 w hw c hcw)]
  rw [List.filter_eq_self.mpr (by
    intro c hc
    rcases mem_joinSpace ws c hc with rfl | ⟨w, hw, hcw⟩
    · decide
    · exact h3 w hw c hcw)]
  rw [splitWs_joinSpace ws h1]

/-- C7: `clean_product_name` is idempotent on every input, and it strips
symbols while preserving the source-locale accented letters: cleaning
"Löwenbräu Original*" yields "löwenbräu original". -/
theorem c7_clean_product_name_idempotent :
    (∀ x : List Char,
      clean_product_name (clean_product_name x) = clean_product_name x) ∧
    clean_product_name ("Löwenbräu Original*".data) =
      ("löwenbräu original".data) := by
  constructor
  · intro x
    have hz : clean_product_name x =
        joinSpace (splitWs (((trimList x).map lowerChar).filter keepChar)) :=
      rfl
    have hw1 : ∀ w ∈ splitWs (((trimList x).map lowerChar).filter keepChar),
        w ≠ [] ∧ ∀ c ∈ w, isWsChar c = false :=
      splitWsAux_words _ [] (by intro c hc; cases hc)
    have hsub : ∀ w ∈ splitWs (((trimList x).map lowerChar).filter keepChar),
        ∀ c ∈ w, c ∈ ((trimList x).map lowerChar).filter keepChar := by
      intro w hw c hc
      rcases splitWsAux_subset _ [] w hw c hc with h | h
      · exact h
      · cases h
    rw [hz]
    refine clean_product_name_joinSpace _ hw1 ?_ ?_
    · intro w hw c hc
      have hcz := hsub w hw c hc
      have hcm := (List.mem_filter.mp hcz).1
      obtain ⟨d, _, rfl⟩ := List.mem_map.mp hcm
      exact lowerChar_idem d
    · intro w hw c hc
      exact (List.mem_filter.mp (hsub w hw c hc)).2
  · decide

/-- Helper: a scan that has already found a match stays found. -/
theorem scanKeys_found_mono (score : List Char → List Char → Option Int)
    (n : List Char) : ∀ (ks : List (List Char)) (bk : List Char) (bs : Int),
    (scanKeys score n ks (true, bk, bs)).1 = true
  | [], _, _ => rfl
  | k :: rest, bk, bs => by
    simp only [scanKeys]
    cases hsc : score k n with
    | none => exact scanKeys_found_mono score n rest bk bs
    | some sc =>
      dsimp only
      split
      · exact scanKeys_found_mono score n rest k sc
      · exact scanKeys_found_mono score n rest bk bs

/-- Helper: the best key of a scan is a scanned key or the initial one. -/
theorem scanKeys_key_cases (score : List Char → List Char → Option Int)
    (n : List Char) : ∀ (ks : List (List Char)) (f : Bool) (bk : List Char)
    (bs : Int), (scanKeys score n ks (f, bk, bs)).2.1 ∈ ks ∨
      (scanKeys score n ks (f, bk, bs)).2.1 = bk
  | [], _, _, _ => Or.inr rfl
  | k :: rest, f, bk, bs => by
    simp only [scanKeys]
    cases hsc : score k n with
    | none =>
      rcases scanKeys_key_cases score n rest f bk bs with h | h
      · exact Or.inl (List.mem_cons_of_mem k h)
      · exact Or.inr h
    | some sc =>
      dsimp only
      split
      · rcases scanKeys_key_cases score n rest true k sc with h | h
        · exact Or.inl (List.mem_cons_of_mem k h)
        · refine Or.inl ?_
          rw [h]
          exact List.mem_cons_self k rest
      · rcases scanKeys_key_cases score n rest f bk bs with h | h
        · exact Or.inl (List.mem_cons_of_mem k h)
        · exact Or.inr h

/-- Helper: if a scan from a not-found state ends found, the best key is
among the scanned keys. -/
theorem scanKeys_found_mem (score : List Char → List Char → Option Int)
    (n : List Char) : ∀ (ks : List (List Char)) (bk : List Char) (bs : Int),
    (scanKeys score n ks (false, bk, bs)).1 = true →
    (scanKeys score n ks (false, bk, bs)).2.1 ∈ ks
  | [], _, _, h => by cases h
  | k :: rest, bk, bs, h => by
    simp only [scanKeys] at h ⊢
    cases hsc : score k n with
    | none =>
      rw [hsc] at h
      exact List.mem_cons_of_mem k (scanKeys_found_mem score n rest bk bs h)
    | some sc =>
      rw [hsc] at h
      dsimp only at h ⊢
      by_cases hcond : 80 < sc ∧ bs < sc
      · rw [if_pos hcond] at h ⊢
        rcases scanKeys_key_cases score n rest true k sc with h2 | h2
        · exact List.mem_cons_of_mem k h2
        · rw [h2]
          exact List.mem_cons_self k rest
      · rw [if_neg hcond] at h ⊢
        exact List.mem_cons_of_mem k (scanKeys_found_mem score n rest bk bs h)

/-- Helper: with a scorer that scores identical names above the cutoff,
a scan over keys containing the name itself always finds a match. -/
theorem scanKeys_self_found (score : List Char → List Char → Option Int)
    (n : List Char) (s : Int) (hs : score n n = some s) (hs80 : 80 < s) :
    ∀ (ks : List (List Char)) (bk : List Char) (bs : Int),
    n ∈ ks → bs ≤ 80 → (scanKeys score n ks (false, bk, bs)).1 = true
  | [], _, _, hmem, _ => absurd hmem (List.not_mem_nil n)
  | k :: rest, bk, bs, hmem, hbs => by
    simp only [scanKeys]
    by_cases hk : k = n
    · subst hk
      rw [hs]
      dsimp only
      rw [if_pos ⟨hs80, lt_of_le_of_lt hbs hs80⟩]
      exact scanKeys_found_mono score k rest k s
    · have hmem2 : n ∈ rest := by
        rcases List.mem_cons.mp hmem with h | h
        · exact absurd h.symm hk
        · exact h
      cases hsc : score k n with
      | none => exact scanKeys_self_found score n s hs hs80 rest bk bs hmem2 hbs
      | some sc =>
        dsimp only
        split
        · exact scanKeys_found_mono score n rest k sc
        · exact scanKeys_self_found score n s hs hs80 rest bk bs hmem2 hbs

/-- Helper: totals absorb an appended price. -/
theorem sumL_append_singleton (l : List Rat) (p : Rat) :
    sumL (l ++ [p]) = sumL l + p := by
  unfold sumL
  rw [List.foldl_append]
  rfl

/-- Helper: updating an entry commutes with collapsing the instrumented
state, whenever the value updates commute with the total. -/
theorem updEntry_map_entrySum {f : List Rat → List Rat} {g : Rat → Rat}
    (hfg : ∀ l, sumL (f l) = g (sumL l)) (k : List Char) :
    ∀ stA : List (List Char × List Rat),
    (updEntry k f stA).map entrySum = updEntry k g (stA.map entrySum)
  | [] => rfl
  | (ek, ev) :: r => by
    simp only [updEntry, List.map_cons, entrySum]
    by_cases hk : (ek == k) = true
    · rw [if_pos hk, if_pos hk]
      simp only [List.map_cons, entrySum, hfg]
    · rw [if_neg hk, if_neg hk]
      simp only [List.map_cons, entrySum]
      rw [updEntry_map_entrySum hfg k r]

/-- Helper: collapsing preserves the key list. -/
theorem keysOf_map_entrySum (stA : List (List Char × List Rat)) :
    keysOf (stA.map entrySum) = keysOf stA := by
  unfold keysOf
  rw [List.map_map]
  rfl

/-- Helper: collapsing preserves key membership. -/
theorem keyMem_map_entrySum (k : List Char)
    (stA : List (List Char × List Rat)) :
    keyMem k (stA.map entrySum) = keyMem k stA := by
  induction stA with
  | nil => rfl
  | cons e r ih =>
    unfold keyMem at ih ⊢
    simp only [List.map_cons, List.any_cons]
    rw [ih]
    rfl

/-- Helper: `keyMem` agrees with membership in `keysOf`. -/
theorem keyMem_iff_mem_keysOf {α : Type} {k : List Char}
    {st : List (List Char × α)} : keyMem k st = true ↔ k ∈ keysOf st := by
  unfold keyMem keysOf
  rw [List.any_eq_true]
  constructor
  · rintro ⟨e, he, heq⟩
    have h2 : e.1 = k := by simpa using heq
    rw [← h2]
    exact List.mem_map_of_mem _ he
  · intro h
    obtain ⟨e, he, heq⟩ := List.mem_map.mp h
    exact ⟨e, he, by simp [heq]⟩

/-- Helper: positional insertion commutes with mapping. -/
theorem insAt_map {α β : Type} (f : α → β) : ∀ (n : Nat) (x : α) (l : List α),
    (insAt n x l).map f = insAt n (f x) (l.map f)
  | 0, _, _ => rfl
  | _ + 1, _, [] => rfl
  | n + 1, x, y :: l => by
    simp only [insAt, List.map_cons]
    rw [insAt_map f n x l]

/-- Helper: positional insertion is a permutation of consing. -/
theorem insAt_perm {α : Type} : ∀ (n : Nat) (x : α) (l : List α),
    (insAt n x l).Perm (x :: l)
  | 0, _, _ => List.Perm.refl _
  | _ + 1, _, [] => List.Perm.refl _
  | n + 1, x, y :: l => by
    show (y :: insAt n x l).Perm (x :: y :: l)
    exact ((insAt_perm n x l).cons y).trans (List.Perm.swap x y l)

/-- Helper: HashMap insertion commutes with collapsing. -/
theorem hmIns_map_entrySum (n : Nat) (k : List Char) (p : Rat)
    (stA : List (List Char × List Rat)) :
    (hmIns n k [p] stA).map entrySum = hmIns n k p (stA.map entrySum) := by
  unfold hmIns
  rw [keyMem_map_entrySum]
  by_cases hk : keyMem k stA = true
  · rw [if_pos hk, if_pos hk]
    exact updEntry_map_entrySum (fun l => by simp [sumL]) k stA
  · rw [if_neg hk, if_neg hk]
    rw [insAt_map]
    have h2 : entrySum (k, [p]) = (k, p) := by simp [entrySum, sumL]
    rw [h2]

/-- Helper: one absorption step commutes with collapsing the
instrumented state to the state of the real program. -/
theorem aggAssignStep_map (score : List Char → List Char → Option Int)
    (pos : List Char → List (List Char) → Nat)
    (stA : List (List Char × List Rat)) (p : Product) :
    (aggAssignStep score pos stA p).map entrySum =
      aggStep score pos (stA.map entrySum) p := by
  simp only [aggAssignStep, aggStep, absorbG, keysOf_map_entrySum]
  by_cases hr : (scanKeys score p.name (keysOf stA) (false, [], 0)).1 = true
  · rw [if_pos hr, if_pos hr]
    exact updEntry_map_entrySum (fun l => sumL_append_singleton l p.price) _ stA
  · rw [if_neg hr, if_neg hr]
    exact hmIns_map_entrySum _ _ _ stA

/-- Helper: appending a price to a present key only appends it to the
bag of assigned prices. -/
theorem priceBag_updEntry_append (k : List Char) (p : Rat) :
    ∀ stA : List (List Char × List Rat), keyMem k stA = true →
    (priceBag (updEntry k (fun l => l ++ [p]) stA)).Perm (priceBag stA ++ [p])
  | [], h => by cases h
  | e :: r, h => by
    simp only [updEntry, priceBag]
    by_cases hk : (e.1 == k) = true
    · rw [if_pos hk]
      simp only [priceBag]
      rw [List.append_assoc, List.append_assoc]
      exact List.Perm.append_left e.2 List.perm_append_comm
    · rw [if_neg hk]
      simp only [priceBag]
      have hkm : keyMem k r = true := by
        unfold keyMem at h
        simp only [List.any_cons, Bool.or_eq_true] at h
        rcases h with h | h
        · exact absurd h hk
        · exact h
      have ih := priceBag_updEntry_append k p r hkm
      rw [List.append_assoc]
      exact List.Perm.append_left e.2 ih

/-- Helper: positional insertion adds exactly the fresh values to the
bag. -/
theorem priceBag_insAt (x : List Char × List Rat) :
    ∀ (n : Nat) (stA : List (List Char × List Rat)),
    (priceBag (insAt n x stA)).Perm (x.2 ++ priceBag stA)
  | 0, _ => List.Perm.refl _
  | _ + 1, [] => by simp [insAt, priceBag]
  | n + 1, e :: r => by
    show (priceBag (e :: insAt n x r)).Perm _
    simp only [priceBag]
    exact (List.Perm.append_left e.2 (priceBag_insAt x n r)).trans
      (List.perm_append_comm_assoc e.2 x.2 (priceBag r))

/-- Helper: one absorption step appends exactly the absorbed price to
the bag of assigned prices. -/
theorem aggAssignStep_priceBag (score : List Char → List Char → Option Int)
    (pos : List Char → List (List Char) → Nat)
    (hself : ∀ k, ∃ s, score k k = some s ∧ 80 < s)
    (stA : List (List Char × List Rat)) (p : Product) :
    (priceBag (aggAssignStep score pos stA p)).Perm
      (priceBag stA ++ [p.price]) := by
  simp only [aggAssignStep, absorbG]
  by_cases hr : (scanKeys score p.name (keysOf stA) (false, [], 0)).1 = true
  · rw [if_pos hr]
    refine priceBag_updEntry_append _ _ stA ?_
    exact keyMem_iff_mem_keysOf.mpr
      (scanKeys_found_mem score p.name (keysOf stA) [] 0 hr)
  · rw [if_neg hr]
    have hnm : ¬ keyMem p.name stA = true := by
      intro hcon
      obtain ⟨s, hs, hs80⟩ := hself p.name
      exact hr (scanKeys_self_found score p.name s hs hs80 (keysOf stA) [] 0
        (keyMem_iff_mem_keysOf.mp hcon) (by decide))
    simp only [hmIns]
    rw [if_neg hnm]
    exact (priceBag_insAt (p.name, [p.price]) _ stA).trans
      List.perm_append_comm

/-- Helper: the aggregation fold commutes with collapsing, and the bag of
assigned prices grows by exactly the absorbed record prices. -/
theorem aggAssign_fold (score : List Char → List Char → Option Int)
    (pos : List Char → List (List Char) → Nat)
    (hself : ∀ k, ∃ s, score k k = some s ∧ 80 < s) :
    ∀ (rs : List Product) (stA : List (List Char × List Rat)),
    ((rs.foldl (aggAssignStep score pos) stA).map entrySum =
      rs.foldl (aggStep score pos) (stA.map entrySum)) ∧
    (priceBag (rs.foldl (aggAssignStep score pos) stA)).Perm
      (priceBag stA ++ rs.map (fun q => q.price))
  | [], stA => ⟨rfl, by simp⟩
  | p :: rs, stA => by
    obtain ⟨ih1, ih2⟩ :=
      aggAssign_fold score pos hself rs (aggAssignStep score pos stA p)
    constructor
    · rw [List.foldl_cons, List.foldl_cons, ih1, aggAssignStep_map]
    · rw [List.foldl_cons, List.map_cons]
      refine ih2.trans ?_
      refine (List.Perm.append_right _
        (aggAssignStep_priceBag score pos hself stA p)).trans ?_
      rw [List.append_assoc, List.singleton_append]

/-- C2: conservation of records in `aggregate_products`. The
instrumented aggregation `aggAssignRun` assigns every record to exactly
one entry — the best-scoring existing key when some key scores strictly
above 80, otherwise a fresh entry under the record name itself.
Collapsing each entry to the left-fold total of its assigned prices (in
absorption order) gives exactly the aggregation state of the program,
and the concatenation of all assigned prices is a permutation of the
record prices: no record is dropped or double counted. The scorer
hypothesis — identical names score above the cutoff, which is the
contract of the fuzzy matcher in the specification — rules out the
`HashMap::insert` overwrite path for an already present key. -/
theorem c2_no_drop_no_double_count
    (score : List Char → List Char → Option Int)
    (pos : List Char → List (List Char) → Nat)
    (hself : ∀ k, ∃ s, score k k = some s ∧ 80 < s) (rs : List Product) :
    (aggAssignRun score pos rs).map entrySum = aggRun score pos rs ∧
    (priceBag (aggAssignRun score pos rs)).Perm
      (rs.map fun q => q.price) := by
  obtain ⟨h1, h2⟩ := aggAssign_fold score pos hself rs []
  exact ⟨h1, by simpa using h2⟩

/-- Witness for C2 with the self-recognizing scorer, back-slot
insertion, and three concrete records. -/
theorem c2_no_drop_no_double_count_w :
    ((aggAssignRun scoreSelf posBack
      [⟨("aa".data), 1⟩, ⟨("aa".data), 2⟩, ⟨("bb".data), 3⟩]).map entrySum =
      aggRun scoreSelf posBack
        [⟨("aa".data), 1⟩, ⟨("aa".data), 2⟩, ⟨("bb".data), 3⟩]) ∧
    (priceBag (aggAssignRun scoreSelf posBack
      [⟨("aa".data), 1⟩, ⟨("aa".data), 2⟩, ⟨("bb".data), 3⟩])).Perm
      ([⟨("aa".data), 1⟩, ⟨("aa".data), 2⟩,
        ⟨("bb".data), 3⟩].map fun q => Product.price q) :=
  c2_no_drop_no_double_count scoreSelf posBack
    (fun k => ⟨100, by simp [scoreSelf], by decide⟩) _

end RcptA
